import Mathlib

/-!
Verification of the local deep-copy primitive and its test harness
(core/unit_test/TestLocalDeepCopy.hpp).

Views are shallowly embedded as flat integer-valued stores (`Nat → Int`)
together with a layout-determined linearization from multi-dimensional
index tuples (`List Nat`) to flat offsets.  Element types are modelled as
`Int`: every value the tests manipulate (flat indices, the fill values 20
and 6, lane indices) is a small integer exactly representable in `double`,
and all sums stay far below 2^53, so `double` arithmetic on them is exact.

The local deep-copy primitives themselves live outside the sources under
study (only their tests are present); they are modelled from the spec,
each marked `Modelled from the spec:` in its doc comment.  Everything
else (the test scenarios, the chunk decomposition, `view_check_equals`,
`extract_subview`'s selector construction) is translated from the source.
-/

namespace LocalDeepCopy

/-- Single-element store update: the effect of one element write
`data[k] = v` on a flat view store. -/
def upd (d : Nat → Int) (k : Nat) (v : Int) : Nat → Int :=
  fun x => if x = k then v else d x

/-- The Element-Space Walk: perform, in list order, one store write per
index tuple `t` of `ts`, writing value `g t` at flat offset `f t`. -/
def writes (f : List Nat → Nat) (g : List Nat → Int) (ts : List (List Nat))
    (d : Nat → Int) : Nat → Int :=
  ts.foldl (fun d t => upd d (f t) (g t)) d

/-- Every index tuple of the Cartesian product of the given per-dimension
extents, first coordinate outermost. -/
def tuplesE : List Nat → List (List Nat)
  | [] => [[]]
  | e :: es => (List.range e).flatMap (fun i => (tuplesE es).map (fun t => i :: t))

/-- The two linearization layouts of a view (LayoutLeft is
column-major-like, LayoutRight row-major-like). -/
inductive Layout
  | left
  | right

/-- Column-major-like linearization (LayoutLeft): the first index varies
fastest.  `offL (e :: es) (i :: t) = i + e * offL es t`. -/
def offL : List Nat → List Nat → Nat
  | e :: es, i :: t => i + e * offL es t
  | _, _ => 0

/-- Row-major-like linearization (LayoutRight): the last index varies
fastest.  `offR (e :: es) (i :: t) = i * es.prod + offR es t`. -/
def offR : List Nat → List Nat → Nat
  | _ :: es, i :: t => i * es.prod + offR es t
  | _, _ => 0

/-- The Linear Layout Mapper: layout-dispatched linearization. -/
def off : Layout → List Nat → List Nat → Nat
  | .left => offL
  | .right => offR

/-- A per-dimension subview selector: a fixed index, a half-open
sub-range, or the full range (Kokkos::ALL). -/
inductive Sel
  | fix (i : Nat)
  | rng (a b : Nat)
  | all

/-- Modelled from the spec: the Subview Extractor maps a subview index
tuple to the corresponding parent-view index tuple, dimension by
dimension; it aliases the parent's storage and copies no element data. -/
def selTuple : List Sel → List Nat → List Nat
  | [], t => t
  | Sel.fix i :: ss, t => i :: selTuple ss t
  | Sel.rng a _ :: ss, j :: t => (a + j) :: selTuple ss t
  | Sel.rng _ _ :: _, [] => []
  | Sel.all :: ss, j :: t => j :: selTuple ss t
  | Sel.all :: _, [] => []

/-- Modelled from the spec: the Subview Extractor's adjusted extents — a
fixed index drops the dimension, a sub-range keeps it with shrunk
extent, a full-range selector keeps it unchanged. -/
def selExtents : List Sel → List Nat → List Nat
  | Sel.fix _ :: ss, _ :: es => selExtents ss es
  | Sel.rng a b :: ss, _ :: es => (b - a) :: selExtents ss es
  | Sel.all :: ss, e :: es => e :: selExtents ss es
  | _, _ => []

/-- The selector list built by the source's extract_subview:
`(src, lid, bounds, ALL × (Rank-2))` — dimension 0 fixed to `lid`,
`bounds` applied to dimension 1, full range on the rest. -/
def subSels (lid : Nat) (bounds : Sel) (rank : Nat) : List Sel :=
  Sel.fix lid :: bounds :: List.replicate (rank - 2) Sel.all

/-- The source's extract_subview; the static_assert rejecting parent
rank ≤ 1 at compile time is modelled by returning none. -/
def extract_subview (rank : Nat) (lid : Nat) (bounds : Sel) : Option (List Sel) :=
  if 1 < rank then some (subSels lid bounds rank) else none

/-- Reading a subview element: an alias of the parent storage at the
layout offset of the mapped parent tuple — no element data is copied. -/
def subGet (store : Nat → Int) (lay : Layout) (es : List Nat)
    (ss : List Sel) (t : List Nat) : Int :=
  store (off lay es (selTuple ss t))

/-- Modelled from the spec: `local_deep_copy(teamContext, dst, src)` —
the team-scoped array copy (§4.4), absent from the sources under study
(only its tests are present).  It walks the destination's element space
and writes `dst[offD t] = src[offS t]` for every index tuple `t`; the
split of the walk across the team's lanes and the trailing team barrier
are concurrency mechanics with no effect on the final store contents, so
the sequential embedding performs the writes in enumeration order. -/
def local_deep_copy_team (offD offS : List Nat → Nat) (ts : List (List Nat))
    (src dst : Nat → Int) : Nat → Int :=
  writes offD (fun t => src (offS t)) ts dst

/-- Modelled from the spec: `local_deep_copy_thread(threadContext, dst, src)`
— the thread-scoped array copy (§4.3), absent from the sources under
study.  One calling thread performs the entire Element-Space Walk for its
own view, with no barrier; elementwise it writes exactly what the
team-scoped walk writes. -/
def local_deep_copy_thread (offD offS : List Nat → Nat) (ts : List (List Nat))
    (src dst : Nat → Int) : Nat → Int :=
  writes offD (fun t => src (offS t)) ts dst

/-- Modelled from the spec: the unscoped `local_deep_copy(dst, src)`
(§4.6), absent from the sources under study.  One call performs the
entire Element-Space Walk with no internal concurrency and no barrier. -/
def local_deep_copy (offD offS : List Nat → Nat) (ts : List (List Nat))
    (src dst : Nat → Int) : Nat → Int :=
  writes offD (fun t => src (offS t)) ts dst

/-- Modelled from the spec: the team-scoped scalar fill
`local_deep_copy(teamContext, dst, scalar)` (§4.5), absent from the
sources under study: broadcasts the scalar to every element of dst. -/
def local_deep_copy_team_scalar (offD : List Nat → Nat) (ts : List (List Nat))
    (v : Int) (dst : Nat → Int) : Nat → Int :=
  writes offD (fun _ => v) ts dst

/-- Modelled from the spec: the unscoped scalar fill
`local_deep_copy(dst, scalar)` (§4.5/§4.6), absent from the sources
under study: broadcasts the scalar to every element of dst. -/
def local_deep_copy_scalar (offD : List Nat → Nat) (ts : List (List Nat))
    (v : Int) (dst : Nat → Int) : Nat → Int :=
  writes offD (fun _ => v) ts dst

/-- Modelled from the spec: the §7 fail-fast policy on shape mismatch —
a copy whose destination and source extents differ is a contract
violation that aborts before any element is written; `none` models the
abort, so no partial or reinterpreted copy ever happens. -/
def local_deep_copy_checked (lay : Layout) (esD esS : List Nat)
    (src dst : Nat → Int) : Option (Nat → Int) :=
  if esD = esS
  then some (local_deep_copy_team (off lay esD) (off lay esS) (tuplesE esD) src dst)
  else none

/-- The source's view_init: element at flat index i is set to i. -/
def view_init_store : Nat → Int := fun i => (i : Int)

/-- The source's fill_value (static constexpr value 20). -/
def fill_value : Int := 20

/-- The source's view_check_equals: a logical-and reduction over the flat
span of `lhs.data()[i] == rhs.data()[i]`.  It only reads the two stores
(the embedding passes them as pure functions and mutates nothing). -/
def view_check_equals (span : Nat) (lhs rhs : Nat → Int) : Bool :=
  (List.range span).foldl (fun acc i => (lhs i == rhs i) && acc) true

/-- The source's per-thread chunk size in test_local_deepcopy_thread:
`N / thread_number`, rounded up by one when the division has a
remainder. -/
def unitsOfWork (N T : Nat) : Nat :=
  N / T + (if N % T = 0 then 0 else 1)

/-- The source's batch count: `N / unitsOfWork` (integer division). -/
def numberOfBatches (N T : Nat) : Nat :=
  N / unitsOfWork N T

/-- The source's chunk lower bound: `start = idx * unitsOfWork`. -/
def chunkStart (N T idx : Nat) : Nat :=
  idx * unitsOfWork N T

/-- The source's chunk upper bound: `stop = (idx+1) * unitsOfWork`
clamped to `[0, N]` — on naturals, `min ((idx+1) * unitsOfWork) N`. -/
def chunkStop (N T idx : Nat) : Nat :=
  min ((idx + 1) * unitsOfWork N T) N

/-- Membership of flat index p in the half-open chunk
`[chunkStart, chunkStop)` assigned to batch idx. -/
abbrev inChunk (N T idx p : Nat) : Prop :=
  chunkStart N T idx ≤ p ∧ p < chunkStop N T idx

/-- Extents of the views A and B in TestLocalDeepCopyRank's rank-r case:
view_create builds a rank-(r+1) view (one leading league dimension plus
r free dimensions) with every extent equal to N. -/
def viewExtents (r N : Nat) : List Nat :=
  List.replicate (r + 1) N

/-- The source's test_local_deepcopy team-policy scenario: for each
league index lid, team-copy `subview(A, lid, ALL, …)` into
`subview(B, lid, ALL, …)` (the subviews built by extract_subview with
ALL bounds). -/
def test_local_deepcopy (lay : Layout) (r N : Nat) (A B : Nat → Int) : Nat → Int :=
  (List.range N).foldl (fun B lid =>
    local_deep_copy_team
      (fun t => off lay (viewExtents r N) (selTuple (subSels lid Sel.all (r + 1)) t))
      (fun t => off lay (viewExtents r N) (selTuple (subSels lid Sel.all (r + 1)) t))
      (tuplesE (selExtents (subSels lid Sel.all (r + 1)) (viewExtents r N)))
      A B) B

/-- The source's test_local_deepcopy_range range-policy scenario: for
each flat iteration index lid, the unscoped copy of
`subview(A, lid, ALL, …)` into `subview(B, lid, ALL, …)`. -/
def test_local_deepcopy_range (lay : Layout) (r N : Nat) (A B : Nat → Int) : Nat → Int :=
  (List.range N).foldl (fun B lid =>
    local_deep_copy
      (fun t => off lay (viewExtents r N) (selTuple (subSels lid Sel.all (r + 1)) t))
      (fun t => off lay (viewExtents r N) (selTuple (subSels lid Sel.all (r + 1)) t))
      (tuplesE (selExtents (subSels lid Sel.all (r + 1)) (viewExtents r N)))
      A B) B

/-- The source's test_local_deepcopy_thread scenario: for each league
index lid, the team's threads split dimension 1 into numberOfBatches
chunks (thread_number is league_size, which the policy fixes to N) and
each thread runs local_deep_copy_thread on its chunk's subview pair,
with no barrier after the call. -/
def test_local_deepcopy_thread (lay : Layout) (r N : Nat) (A B : Nat → Int) : Nat → Int :=
  (List.range N).foldl (fun B lid =>
    (List.range (numberOfBatches N N)).foldl (fun B idx =>
      local_deep_copy_thread
        (fun t => off lay (viewExtents r N)
          (selTuple (subSels lid (Sel.rng (chunkStart N N idx) (chunkStop N N idx)) (r + 1)) t))
        (fun t => off lay (viewExtents r N)
          (selTuple (subSels lid (Sel.rng (chunkStart N N idx) (chunkStop N N idx)) (r + 1)) t))
        (tuplesE (selExtents (subSels lid (Sel.rng (chunkStart N N idx) (chunkStop N N idx)) (r + 1))
          (viewExtents r N)))
        A B) B) B

/-- The source's test_local_deepcopy_scalar scenario: for each league
index lid, team-fill `subview(B, lid, ALL, …)` with fill_value. -/
def test_local_deepcopy_scalar (lay : Layout) (r N : Nat) (B : Nat → Int) : Nat → Int :=
  (List.range N).foldl (fun B lid =>
    local_deep_copy_team_scalar
      (fun t => off lay (viewExtents r N) (selTuple (subSels lid Sel.all (r + 1)) t))
      (tuplesE (selExtents (subSels lid Sel.all (r + 1)) (viewExtents r N)))
      fill_value B) B

/-- The source's test_local_deepcopy_scalar_range scenario: for each
flat iteration index lid, the unscoped fill of `subview(B, lid, ALL, …)`
with fill_value. -/
def test_local_deepcopy_scalar_range (lay : Layout) (r N : Nat) (B : Nat → Int) : Nat → Int :=
  (List.range N).foldl (fun B lid =>
    local_deep_copy_scalar
      (fun t => off lay (viewExtents r N) (selTuple (subSels lid Sel.all (r + 1)) t))
      (tuplesE (selExtents (subSels lid Sel.all (r + 1)) (viewExtents r N)))
      fill_value B) B

/-- The source's DeepCopyScratchFunctor body.  The scratch view shview is
a LayoutRight N×1 view over scratch store S; check_view_1/check_view_2
are rank-1 heap views of extent N over stores v1/v2.  Step 1: each lane
index fills its own scratch row `subview(shview, index, ALL)` with the
value index.  Step 2: team-copy column 0, `subview(shview, ALL, 0)`,
into check_view_1.  Step 3: team-fill the whole shview with 6.  Step 4:
team-copy column 0 into check_view_2.  Returns the final contents of
(check_view_1, check_view_2). -/
def deep_copy_scratch_run (N : Nat) (S v1 v2 : Nat → Int) :
    (Nat → Int) × (Nat → Int) :=
  let S1 := (List.range N).foldl (fun S index =>
    local_deep_copy_scalar
      (fun t => offR [N, 1] (selTuple [Sel.fix index, Sel.all] t))
      (tuplesE (selExtents [Sel.fix index, Sel.all] [N, 1]))
      (index : Int) S) S
  let c1 := local_deep_copy_team
    (fun t => offL [N] t)
    (fun t => offR [N, 1] (selTuple [Sel.all, Sel.fix 0] t))
    (tuplesE [N]) S1 v1
  let S2 := local_deep_copy_team_scalar (offR [N, 1]) (tuplesE [N, 1]) 6 S1
  let c2 := local_deep_copy_team
    (fun t => offL [N] t)
    (fun t => offR [N, 1] (selTuple [Sel.all, Sel.fix 0] t))
    (tuplesE [N]) S2 v2
  (c1, c2)

theorem upd_self (d : Nat → Int) (k : Nat) (v : Int) : upd d k v k = v := by
  simp [upd]

theorem upd_other (d : Nat → Int) (k : Nat) (v : Int) (x : Nat) (h : x ≠ k) :
    upd d k v x = d x := by
  simp [upd, h]

theorem writes_nil (f : List Nat → Nat) (g : List Nat → Int) (d : Nat → Int) :
    writes f g [] d = d := rfl

theorem writes_cons (f : List Nat → Nat) (g : List Nat → Int) (t : List Nat)
    (ts : List (List Nat)) (d : Nat → Int) :
    writes f g (t :: ts) d = writes f g ts (upd d (f t) (g t)) := rfl

theorem writes_append (f : List Nat → Nat) (g : List Nat → Int)
    (ts₁ ts₂ : List (List Nat)) (d : Nat → Int) :
    writes f g (ts₁ ++ ts₂) d = writes f g ts₂ (writes f g ts₁ d) := by
  unfold writes
  exact List.foldl_append ..

/-- A flat offset touched by no write keeps its previous contents. -/
theorem writes_notMem (f : List Nat → Nat) (g : List Nat → Int)
    (ts : List (List Nat)) (d : Nat → Int) (q : Nat)
    (h : ∀ t ∈ ts, f t ≠ q) : writes f g ts d q = d q := by
  induction ts generalizing d with
  | nil => rfl
  | cons a ts ih =>
    rw [writes_cons, ih (upd d (f a) (g a)) (fun t ht => h t (List.mem_cons_of_mem _ ht))]
    exact upd_other _ _ _ _ (Ne.symm (h a (List.mem_cons_self a ts)))

/-- If the value written is determined by the flat offset (as it is for a
copy reading the source at the same offset, and for a constant fill),
then after the walk the store holds that value at every written offset. -/
theorem writes_mem (f : List Nat → Nat) (g : List Nat → Int) :
    ∀ (ts : List (List Nat)) (d : Nat → Int) (t : List Nat), t ∈ ts →
      (∀ t' ∈ ts, f t' = f t → g t' = g t) → writes f g ts d (f t) = g t := by
  intro ts
  induction ts with
  | nil => intro d t h; cases h
  | cons a ts ih =>
    intro d t hmem hval
    rw [writes_cons]
    rcases List.mem_cons.mp hmem with h1 | h2
    · subst h1
      by_cases hc : ∃ t' ∈ ts, f t' = f t
      · rcases hc with ⟨t', ht', hf⟩
        have hval' : ∀ u ∈ ts, f u = f t' → g u = g t' := by
          intro u hu hfu
          have e1 := hval u (List.mem_cons_of_mem _ hu) (hfu.trans hf)
          have e2 := hval t' (List.mem_cons_of_mem _ ht') hf
          rw [e1, e2]
        have hrec := ih (upd d (f t) (g t)) t' ht' hval'
        rw [hf] at hrec
        rw [hrec]
        exact hval t' (List.mem_cons_of_mem _ ht') hf
      · push_neg at hc
        rw [writes_notMem f g ts _ (f t) hc]
        exact upd_self _ _ _
    · exact ih _ t h2 (fun u hu hfu => hval u (List.mem_cons_of_mem _ hu) hfu)

theorem writes_flatMap {α : Type} (f : List Nat → Nat) (g : List Nat → Int)
    (l : List α) (h : α → List (List Nat)) (d : Nat → Int) :
    writes f g (l.flatMap h) d = l.foldl (fun d a => writes f g (h a) d) d := by
  induction l generalizing d with
  | nil => rfl
  | cons a l ih =>
    rw [List.flatMap_cons, writes_append, List.foldl_cons, ih]

theorem writes_map (f : List Nat → Nat) (g : List Nat → Int)
    (h : List Nat → List Nat) (ts : List (List Nat)) (d : Nat → Int) :
    writes f g (ts.map h) d
      = writes (fun t => f (h t)) (fun t => g (h t)) ts d := by
  unfold writes
  exact List.foldl_map ..

theorem tuplesE_cons (e : Nat) (es : List Nat) :
    tuplesE (e :: es)
      = (List.range e).flatMap (fun i => (tuplesE es).map (fun t => i :: t)) := rfl

theorem mem_tuplesE_cons {e : Nat} {es : List Nat} {u : List Nat} :
    u ∈ tuplesE (e :: es) ↔ ∃ i, i < e ∧ ∃ t, t ∈ tuplesE es ∧ u = i :: t := by
  constructor
  · intro h
    rcases List.mem_flatMap.mp h with ⟨i, hi, hu⟩
    rcases List.mem_map.mp hu with ⟨t, ht, h2⟩
    exact ⟨i, List.mem_range.mp hi, t, ht, h2.symm⟩
  · rintro ⟨i, hi, t, ht, rfl⟩
    exact List.mem_flatMap.mpr
      ⟨i, List.mem_range.mpr hi, List.mem_map.mpr ⟨t, ht, rfl⟩⟩

theorem offL_cons (e : Nat) (es : List Nat) (i : Nat) (t : List Nat) :
    offL (e :: es) (i :: t) = i + e * offL es t := rfl

theorem offR_cons (e : Nat) (es : List Nat) (i : Nat) (t : List Nat) :
    offR (e :: es) (i :: t) = i * es.prod + offR es t := rfl

/-- Every flat offset below the span is hit by some valid index tuple
(column-major-like layout). -/
theorem offL_surj : ∀ (es : List Nat) (p : Nat), p < es.prod →
    ∃ t, t ∈ tuplesE es ∧ offL es t = p := by
  intro es
  induction es with
  | nil =>
    intro p hp
    simp only [List.prod_nil, Nat.lt_one_iff] at hp
    subst hp
    exact ⟨[], by simp [tuplesE], rfl⟩
  | cons e es ih =>
    intro p hp
    rw [List.prod_cons] at hp
    have he : 0 < e := by
      rcases Nat.eq_zero_or_pos e with rfl | h
      · simp at hp
      · exact h
    have hdiv : p / e < es.prod := by
      rw [Nat.div_lt_iff_lt_mul he, Nat.mul_comm]
      exact hp
    rcases ih (p / e) hdiv with ⟨t, ht, hoff⟩
    refine ⟨p % e :: t, ?_, ?_⟩
    · exact mem_tuplesE_cons.mpr ⟨p % e, Nat.mod_lt _ he, t, ht, rfl⟩
    · rw [offL_cons, hoff]
      exact Nat.mod_add_div p e

/-- Every flat offset below the span is hit by some valid index tuple
(row-major-like layout). -/
theorem offR_surj : ∀ (es : List Nat) (p : Nat), p < es.prod →
    ∃ t, t ∈ tuplesE es ∧ offR es t = p := by
  intro es
  induction es with
  | nil =>
    intro p hp
    simp only [List.prod_nil, Nat.lt_one_iff] at hp
    subst hp
    exact ⟨[], by simp [tuplesE], rfl⟩
  | cons e es ih =>
    intro p hp
    rw [List.prod_cons] at hp
    have hP : 0 < es.prod := by
      rcases Nat.eq_zero_or_pos es.prod with h | h
      · rw [h, Nat.mul_zero] at hp; omega
      · exact h
    have hdiv : p / es.prod < e := by
      rw [Nat.div_lt_iff_lt_mul hP]
      omega
    rcases ih (p % es.prod) (Nat.mod_lt _ hP) with ⟨t, ht, hoff⟩
    refine ⟨p / es.prod :: t, ?_, ?_⟩
    · exact mem_tuplesE_cons.mpr ⟨p / es.prod, hdiv, t, ht, rfl⟩
    · rw [offR_cons, hoff, Nat.mul_comm]
      exact Nat.div_add_mod p es.prod

/-- Every flat offset below the span is hit by some valid index tuple,
whichever layout linearizes the view. -/
theorem off_surj (lay : Layout) (es : List Nat) (p : Nat) (hp : p < es.prod) :
    ∃ t, t ∈ tuplesE es ∧ off lay es t = p := by
  cases lay
  · exact offL_surj es p hp
  · exact offR_surj es p hp

theorem selTuple_replicate_all : ∀ (k : Nat) (t : List Nat),
    selTuple (List.replicate k Sel.all) t = t := by
  intro k
  induction k with
  | zero => intro t; rfl
  | succ k ih =>
    intro t
    cases t with
    | nil => rfl
    | cons j t => rw [List.replicate_succ]; show j :: selTuple _ t = _; rw [ih]

theorem selTuple_fix_all (lid k : Nat) (t : List Nat) :
    selTuple (Sel.fix lid :: Sel.all :: List.replicate k Sel.all) t = lid :: t := by
  cases t with
  | nil => rfl
  | cons j t =>
    show lid :: j :: selTuple (List.replicate k Sel.all) t = _
    rw [selTuple_replicate_all]

theorem selTuple_fix_rng (lid a b k : Nat) (j : Nat) (t : List Nat) :
    selTuple (Sel.fix lid :: Sel.rng a b :: List.replicate k Sel.all) (j :: t)
      = lid :: (a + j) :: t := by
  show lid :: (a + j) :: selTuple (List.replicate k Sel.all) t = _
  rw [selTuple_replicate_all]

theorem selTuple_subSels_all (lid r : Nat) (t : List Nat) :
    selTuple (subSels lid Sel.all (r + 1)) t = lid :: t :=
  selTuple_fix_all lid (r + 1 - 2) t

theorem selTuple_subSels_rng (lid a b r : Nat) (j : Nat) (t : List Nat) :
    selTuple (subSels lid (Sel.rng a b) (r + 1)) (j :: t) = lid :: (a + j) :: t :=
  selTuple_fix_rng lid a b (r + 1 - 2) j t

theorem selExtents_replicate_all : ∀ (k N : Nat),
    selExtents (List.replicate k Sel.all) (List.replicate k N)
      = List.replicate k N := by
  intro k
  induction k with
  | zero => intro N; rfl
  | succ k ih =>
    intro N
    rw [List.replicate_succ, List.replicate_succ]
    show N :: selExtents _ _ = _
    rw [ih]

theorem selExtents_subSels_all (lid r N : Nat) (hr : 1 ≤ r) :
    selExtents (subSels lid Sel.all (r + 1)) (List.replicate (r + 1) N)
      = List.replicate r N := by
  rcases Nat.exists_eq_add_of_le hr with ⟨k, rfl⟩
  show selExtents (Sel.fix lid :: Sel.all :: List.replicate (1 + k + 1 - 2) Sel.all) _ = _
  have h2 : 1 + k + 1 - 2 = k := by omega
  have h1 : 1 + k = k + 1 := by omega
  rw [h2, h1, List.replicate_succ, List.replicate_succ]
  show N :: selExtents (List.replicate k Sel.all) (List.replicate k N) = _
  rw [selExtents_replicate_all]

theorem selExtents_subSels_rng (lid a b r N : Nat) (hr : 1 ≤ r) :
    selExtents (subSels lid (Sel.rng a b) (r + 1)) (List.replicate (r + 1) N)
      = (b - a) :: List.replicate (r - 1) N := by
  rcases Nat.exists_eq_add_of_le hr with ⟨k, rfl⟩
  show selExtents (Sel.fix lid :: Sel.rng a b :: List.replicate (1 + k + 1 - 2) Sel.all) _ = _
  have h2 : 1 + k + 1 - 2 = k := by omega
  have h1 : 1 + k = k + 1 := by omega
  rw [h2, h1, List.replicate_succ, List.replicate_succ]
  show (b - a) :: selExtents (List.replicate k Sel.all) (List.replicate k N) = _
  rw [selExtents_replicate_all]
  have h3 : k + 1 - 1 = k := by omega
  rw [h3]

theorem foldl_congr_mem {α β : Type _} (f g : β → α → β) (l : List α)
    (H : ∀ b, ∀ a ∈ l, f b a = g b a) : ∀ b, l.foldl f b = l.foldl g b := by
  induction l with
  | nil => intro b; rfl
  | cons a l ih =>
    intro b
    rw [List.foldl_cons, List.foldl_cons, H b a (List.mem_cons_self a l)]
    exact ih (fun b' a' ha' => H b' a' (List.mem_cons_of_mem _ ha')) _

/-- After a walk whose every write reads the source at the written
offset, each covered offset holds the source value. -/
theorem covered_copy_val (F : List Nat → Nat) (A B : Nat → Int)
    (L : List (List Nat)) (p : Nat) (hc : ∃ t ∈ L, F t = p) :
    writes F (fun t => A (F t)) L B p = A p := by
  rcases hc with ⟨t, ht, rfl⟩
  exact writes_mem F _ L B t ht (fun t' _ h => congrArg A h)

/-- After a constant-fill walk, each covered offset holds the fill value. -/
theorem covered_fill_val (F : List Nat → Nat) (v : Int) (B : Nat → Int)
    (L : List (List Nat)) (p : Nat) (hc : ∃ t ∈ L, F t = p) :
    writes F (fun _ => v) L B p = v := by
  rcases hc with ⟨t, ht, rfl⟩
  exact writes_mem F _ L B t ht (fun t' _ _ => rfl)

/-- The per-lid ALL-bounds subview tuples, over all league indices,
enumerate exactly the full view's index tuples. -/
theorem sliceAll_flatMap (r N : Nat) :
    (List.range N).flatMap (fun lid =>
        (tuplesE (List.replicate r N)).map (selTuple (subSels lid Sel.all (r + 1))))
      = tuplesE (viewExtents r N) := by
  have h : ∀ lid : Nat, selTuple (subSels lid Sel.all (r + 1)) = fun t => lid :: t :=
    fun lid => funext (selTuple_subSels_all lid r)
  simp only [h]
  rfl

theorem span_viewExtents (r N : Nat) : (viewExtents r N).prod = N ^ (r + 1) := by
  unfold viewExtents
  exact List.prod_replicate ..

/-- Elementwise result of the team-policy copy scenario: every flat
offset within the span ends up holding the source element. -/
theorem team_copy_val (lay : Layout) (r N : Nat) (hr : 1 ≤ r)
    (A B : Nat → Int) (p : Nat) (hp : p < N ^ (r + 1)) :
    test_local_deepcopy lay r N A B p = A p := by
  have hext : ∀ lid : Nat,
      tuplesE (selExtents (subSels lid Sel.all (r + 1)) (viewExtents r N))
        = tuplesE (List.replicate r N) :=
    fun lid => congrArg tuplesE (selExtents_subSels_all lid r N hr)
  have hstep : ∀ (B : Nat → Int) (lid : Nat),
      local_deep_copy_team
        (fun t => off lay (viewExtents r N) (selTuple (subSels lid Sel.all (r + 1)) t))
        (fun t => off lay (viewExtents r N) (selTuple (subSels lid Sel.all (r + 1)) t))
        (tuplesE (selExtents (subSels lid Sel.all (r + 1)) (viewExtents r N)))
        A B
      = writes (off lay (viewExtents r N)) (fun t => A (off lay (viewExtents r N) t))
          ((tuplesE (List.replicate r N)).map (selTuple (subSels lid Sel.all (r + 1)))) B := by
    intro B lid
    rw [hext lid]
    exact (writes_map (off lay (viewExtents r N))
      (fun t => A (off lay (viewExtents r N) t))
      (selTuple (subSels lid Sel.all (r + 1))) (tuplesE (List.replicate r N)) B).symm
  unfold test_local_deepcopy
  rw [funext fun B => funext fun lid => hstep B lid]
  have hflat := writes_flatMap (off lay (viewExtents r N))
    (fun t => A (off lay (viewExtents r N) t)) (List.range N)
    (fun lid => (tuplesE (List.replicate r N)).map (selTuple (subSels lid Sel.all (r + 1)))) B
  rw [← hflat, sliceAll_flatMap]
  obtain ⟨t, ht, hFt⟩ := off_surj lay (viewExtents r N) p
    (by rw [span_viewExtents]; exact hp)
  exact covered_copy_val _ A B _ p ⟨t, ht, hFt⟩

/-- The range-policy copy scenario: in the sequential embedding the
unscoped walk writes exactly what the team-scoped walk writes, so the
two scenarios build identical stores. -/
theorem range_copy_eq_team (lay : Layout) (r N : Nat) (A B : Nat → Int) :
    test_local_deepcopy_range lay r N A B = test_local_deepcopy lay r N A B := rfl

/-- Elementwise result of the team-policy scalar-fill scenario. -/
theorem team_fill_val (lay : Layout) (r N : Nat) (hr : 1 ≤ r)
    (B : Nat → Int) (p : Nat) (hp : p < N ^ (r + 1)) :
    test_local_deepcopy_scalar lay r N B p = fill_value := by
  have hext : ∀ lid : Nat,
      tuplesE (selExtents (subSels lid Sel.all (r + 1)) (viewExtents r N))
        = tuplesE (List.replicate r N) :=
    fun lid => congrArg tuplesE (selExtents_subSels_all lid r N hr)
  have hstep : ∀ (B : Nat → Int) (lid : Nat),
      local_deep_copy_team_scalar
        (fun t => off lay (viewExtents r N) (selTuple (subSels lid Sel.all (r + 1)) t))
        (tuplesE (selExtents (subSels lid Sel.all (r + 1)) (viewExtents r N)))
        fill_value B
      = writes (off lay (viewExtents r N)) (fun _ => fill_value)
          ((tuplesE (List.replicate r N)).map (selTuple (subSels lid Sel.all (r + 1)))) B := by
    intro B lid
    rw [hext lid]
    exact (writes_map (off lay (viewExtents r N)) (fun _ => fill_value)
      (selTuple (subSels lid Sel.all (r + 1))) (tuplesE (List.replicate r N)) B).symm
  unfold test_local_deepcopy_scalar
  rw [funext fun B => funext fun lid => hstep B lid]
  have hflat := writes_flatMap (off lay (viewExtents r N)) (fun _ => fill_value)
    (List.range N)
    (fun lid => (tuplesE (List.replicate r N)).map (selTuple (subSels lid Sel.all (r + 1)))) B
  rw [← hflat, sliceAll_flatMap]
  obtain ⟨t, ht, hFt⟩ := off_surj lay (viewExtents r N) p
    (by rw [span_viewExtents]; exact hp)
  exact covered_fill_val _ fill_value B _ p ⟨t, ht, hFt⟩

/-- The range-policy scalar fill builds the same store as the
team-policy scalar fill. -/
theorem range_fill_eq_team (lay : Layout) (r N : Nat) (B : Nat → Int) :
    test_local_deepcopy_scalar_range lay r N B = test_local_deepcopy_scalar lay r N B := rfl

theorem unitsOfWork_self (N : Nat) (hN : 1 ≤ N) : unitsOfWork N N = 1 := by
  unfold unitsOfWork
  rw [Nat.div_self hN, Nat.mod_self]
  simp

theorem numberOfBatches_self (N : Nat) (hN : 1 ≤ N) : numberOfBatches N N = N := by
  unfold numberOfBatches
  rw [unitsOfWork_self N hN, Nat.div_one]

theorem chunkStart_self (N idx : Nat) (hN : 1 ≤ N) : chunkStart N N idx = idx := by
  unfold chunkStart
  rw [unitsOfWork_self N hN, Nat.mul_one]

theorem chunkStop_self (N idx : Nat) (hN : 1 ≤ N) (hidx : idx < N) :
    chunkStop N N idx = idx + 1 := by
  unfold chunkStop
  rw [unitsOfWork_self N hN, Nat.mul_one]
  exact Nat.min_eq_left (by omega)

/-- Every index tuple of the full view is written by some (league index,
batch index) pair of the thread-scoped scenario's decomposition with
thread_number = N (one unit of work per batch). -/
theorem sliceThread_cover (r N : Nat) (hr : 1 ≤ r) (u : List Nat)
    (hu : u ∈ tuplesE (viewExtents r N)) :
    u ∈ (List.range N).flatMap (fun lid => (List.range N).flatMap (fun idx =>
        (tuplesE (1 :: List.replicate (r - 1) N)).map
          (selTuple (subSels lid (Sel.rng idx (idx + 1)) (r + 1))))) := by
  obtain ⟨k, rfl⟩ : ∃ k, r = k + 1 := ⟨r - 1, by omega⟩
  rcases mem_tuplesE_cons.mp hu with ⟨i, hi, t, ht, rfl⟩
  rcases mem_tuplesE_cons.mp ht with ⟨j, hj, rest, hrest, rfl⟩
  refine List.mem_flatMap.mpr ⟨i, List.mem_range.mpr hi,
    List.mem_flatMap.mpr ⟨j, List.mem_range.mpr hj,
      List.mem_map.mpr ⟨0 :: rest, ?_, ?_⟩⟩⟩
  · exact mem_tuplesE_cons.mpr ⟨0, Nat.one_pos, rest, hrest, rfl⟩
  · rw [selTuple_subSels_rng, Nat.add_zero]

/-- Elementwise result of the thread-scoped copy scenario: every flat
offset within the span ends up holding the source element, with no
barrier after any per-thread call. -/
theorem thread_copy_val (lay : Layout) (r N : Nat) (hr : 1 ≤ r) (hN : 1 ≤ N)
    (A B : Nat → Int) (p : Nat) (hp : p < N ^ (r + 1)) :
    test_local_deepcopy_thread lay r N A B p = A p := by
  have hinner : ∀ (B : Nat → Int) (lid : Nat),
      (List.range N).foldl (fun B idx =>
        local_deep_copy_thread
          (fun t => off lay (viewExtents r N)
            (selTuple (subSels lid (Sel.rng (chunkStart N N idx) (chunkStop N N idx)) (r + 1)) t))
          (fun t => off lay (viewExtents r N)
            (selTuple (subSels lid (Sel.rng (chunkStart N N idx) (chunkStop N N idx)) (r + 1)) t))
          (tuplesE (selExtents (subSels lid (Sel.rng (chunkStart N N idx) (chunkStop N N idx)) (r + 1))
            (viewExtents r N)))
          A B) B
      = writes (off lay (viewExtents r N)) (fun t => A (off lay (viewExtents r N) t))
          ((List.range N).flatMap (fun idx =>
            (tuplesE (1 :: List.replicate (r - 1) N)).map
              (selTuple (subSels lid (Sel.rng idx (idx + 1)) (r + 1))))) B := by
    intro B lid
    rw [writes_flatMap]
    refine foldl_congr_mem _ _ (List.range N) ?_ B
    intro B idx hidx
    have hidxN : idx < N := List.mem_range.mp hidx
    rw [chunkStart_self N idx hN, chunkStop_self N idx hN hidxN]
    have hone : idx + 1 - idx = 1 := by omega
    have hext : tuplesE (selExtents (subSels lid (Sel.rng idx (idx + 1)) (r + 1)) (viewExtents r N))
        = tuplesE (1 :: List.replicate (r - 1) N) := by
      have h1 := selExtents_subSels_rng lid idx (idx + 1) r N hr
      rw [hone] at h1
      exact congrArg tuplesE h1
    rw [hext]
    exact (writes_map (off lay (viewExtents r N))
      (fun t => A (off lay (viewExtents r N) t))
      (selTuple (subSels lid (Sel.rng idx (idx + 1)) (r + 1)))
      (tuplesE (1 :: List.replicate (r - 1) N)) B).symm
  unfold test_local_deepcopy_thread
  rw [numberOfBatches_self N hN]
  rw [funext fun B => funext fun lid => hinner B lid]
  have hflat := writes_flatMap (off lay (viewExtents r N))
    (fun t => A (off lay (viewExtents r N) t)) (List.range N)
    (fun lid => (List.range N).flatMap (fun idx =>
      (tuplesE (1 :: List.replicate (r - 1) N)).map
        (selTuple (subSels lid (Sel.rng idx (idx + 1)) (r + 1))))) B
  rw [← hflat]
  obtain ⟨t, ht, hFt⟩ := off_surj lay (viewExtents r N) p
    (by rw [span_viewExtents]; exact hp)
  exact covered_copy_val _ A B _ p ⟨t, sliceThread_cover r N hr t ht, hFt⟩

theorem diag_fold (N : Nat) : ∀ (S : Nat → Int) (p : Nat), p < N →
    ((List.range N).foldl (fun S i => upd S i (i : Int)) S) p = (p : Int) := by
  induction N with
  | zero => intro S p hp; omega
  | succ n ih =>
    intro S p hp
    have hsplit : List.range (n + 1) = List.range n ++ [n] := by
      simpa using List.range_succ n
    rw [hsplit, List.foldl_append]
    show upd ((List.range n).foldl _ S) n (n : Int) p = (p : Int)
    by_cases hpn : p = n
    · subst hpn
      exact upd_self _ _ _
    · rw [upd_other _ _ _ _ hpn]
      exact ih S p (by omega)

/-- After the per-lane scratch fills, scratch slot q holds the lane
index q: lane `index` writes only flat offset `index` of the N×1
LayoutRight scratch view. -/
theorem scratch_fill_diag (N : Nat) (S : Nat → Int) (q : Nat) (hq : q < N) :
    ((List.range N).foldl (fun S index =>
      local_deep_copy_scalar
        (fun t => offR [N, 1] (selTuple [Sel.fix index, Sel.all] t))
        (tuplesE (selExtents [Sel.fix index, Sel.all] [N, 1]))
        (index : Int) S) S) q = (q : Int) := by
  have hdiag : (fun (S : Nat → Int) (index : Nat) =>
      local_deep_copy_scalar
        (fun t => offR [N, 1] (selTuple [Sel.fix index, Sel.all] t))
        (tuplesE (selExtents [Sel.fix index, Sel.all] [N, 1]))
        (index : Int) S)
      = fun S index => upd S index (index : Int) := by
    funext S index
    show upd S (offR [N, 1] (selTuple [Sel.fix index, Sel.all] [0])) (index : Int) = _
    have hoff : offR [N, 1] (selTuple [Sel.fix index, Sel.all] [0]) = index := by
      simp [selTuple, offR]
    rw [hoff]
  rw [hdiag]
  exact diag_fold N S q hq

/-- Reading scratch column 0 into a rank-1 heap view: entry i of the
destination is the scratch element at flat offset i. -/
theorem scratch_column_read (N : Nat) (St v : Nat → Int) (i : Nat) (hi : i < N) :
    local_deep_copy_team (fun t => offL [N] t)
      (fun t => offR [N, 1] (selTuple [Sel.all, Sel.fix 0] t))
      (tuplesE [N]) St v i
    = St i := by
  have hkey : offL [N] [i] = i := by simp [offL]
  have hmem : [i] ∈ tuplesE [N] :=
    mem_tuplesE_cons.mpr ⟨i, hi, [], by simp [tuplesE], rfl⟩
  have hval : ∀ t' ∈ tuplesE [N],
      (fun t => offL [N] t) t' = (fun t => offL [N] t) [i] →
      (fun t => St (offR [N, 1] (selTuple [Sel.all, Sel.fix 0] t))) t'
        = (fun t => St (offR [N, 1] (selTuple [Sel.all, Sel.fix 0] t))) [i] := by
    intro t' ht' he
    rcases mem_tuplesE_cons.mp ht' with ⟨i', hi', t'', ht'', rfl⟩
    have h0 : t'' = [] := by simpa [tuplesE] using ht''
    subst h0
    have h1 : i' = i := by simpa [offL] using he
    subst h1
    rfl
  have hw := writes_mem (fun t => offL [N] t)
    (fun t => St (offR [N, 1] (selTuple [Sel.all, Sel.fix 0] t)))
    (tuplesE [N]) v [i] hmem hval
  simp only [hkey] at hw
  have hsel : offR [N, 1] (selTuple [Sel.all, Sel.fix 0] [i]) = i := by
    simp [selTuple, offR]
  rw [hsel] at hw
  exact hw

/-- The team fill of the whole N×1 scratch view sets every scratch slot
below the span to the fill value. -/
theorem scratch_fill_all (N : Nat) (St : Nat → Int) (q : Nat) (hq : q < N) :
    local_deep_copy_team_scalar (offR [N, 1]) (tuplesE [N, 1]) 6 St q = 6 := by
  have hprod : ([N, 1] : List Nat).prod = N := by simp
  obtain ⟨t, ht, hofft⟩ := off_surj Layout.right [N, 1] q (by rw [hprod]; exact hq)
  exact covered_fill_val (offR [N, 1]) 6 St (tuplesE [N, 1]) q ⟨t, ht, hofft⟩

theorem unitsOfWork_pos (N T : Nat) (hN : 1 ≤ N) (hT : 1 ≤ T) :
    1 ≤ unitsOfWork N T := by
  unfold unitsOfWork
  by_cases h : N % T = 0
  · rw [if_pos h]
    have hdvd : T ∣ N := Nat.dvd_of_mod_eq_zero h
    have hle : T ≤ N := Nat.le_of_dvd (by omega) hdvd
    have := Nat.div_pos hle hT
    omega
  · rw [if_neg h]
    exact Nat.le_add_left 1 (N / T)

theorem vce_succ (n : Nat) (lhs rhs : Nat → Int) :
    view_check_equals (n + 1) lhs rhs
      = ((lhs n == rhs n) && view_check_equals n lhs rhs) := by
  unfold view_check_equals
  have hsplit : List.range (n + 1) = List.range n ++ [n] := by
    simpa using List.range_succ n
  rw [hsplit, List.foldl_append]
  rfl

/-- C9: view_check_equals(lhs, rhs) returns true exactly when for every
flat index i below the span the elements lhs.data()[i] and rhs.data()[i]
coincide; it is a pure reduction that reads the two stores (passed as
functions) and mutates neither. -/
theorem C9_view_check_equals_iff : ∀ (span : Nat) (lhs rhs : Nat → Int),
    view_check_equals span lhs rhs = true ↔ ∀ i, i < span → lhs i = rhs i := by
  intro span
  induction span with
  | zero =>
    intro lhs rhs
    constructor
    · intro _ i hi
      omega
    · intro _
      rfl
  | succ n ih =>
    intro lhs rhs
    rw [vce_succ n lhs rhs, Bool.and_eq_true, beq_iff_eq, ih lhs rhs]
    constructor
    · rintro ⟨h1, h2⟩ i hi
      rcases Nat.lt_succ_iff_lt_or_eq.mp hi with h | h
      · exact h2 i h
      · rw [h]
        exact h1
    · intro h
      exact ⟨h n (Nat.lt_succ_self n), fun i hi => h i (Nat.lt_succ_of_lt hi)⟩

/-- C3 counterexample: the claimed exact cover of [0, N) fails at
N = 5, T = 2.  There unitsOfWork = 3 and numberOfBatches = 1, and flat
index 3 < 5 lies in no chunk [idx*unitsOfWork, min((idx+1)*unitsOfWork, N))
with idx < numberOfBatches, so the decomposition does not cover [0, 5). -/
theorem C3_chunk_cover_counterexample :
    3 < 5 ∧ numberOfBatches 5 2 = 1
      ∧ (∀ idx, idx < numberOfBatches 5 2 → ¬ inChunk 5 2 idx 3) := by
  decide

/-- C3 (amended): for every N ≥ 1 and T ≥ 1 the chunks with
idx < numberOfBatches are pairwise disjoint and cover exactly the flat
indices below numberOfBatches * unitsOfWork, a prefix of [0, N); the
cover is all of [0, N) only when unitsOfWork divides N (as in the test's
actual configuration T = N, where unitsOfWork = 1), the last
N mod unitsOfWork indices being uncovered otherwise. -/
theorem C3_chunk_cover_amended (N T : Nat) (hN : 1 ≤ N) (hT : 1 ≤ T) :
    (∀ i j p, i < numberOfBatches N T → j < numberOfBatches N T →
        inChunk N T i p → inChunk N T j p → i = j)
    ∧ (∀ p, (∃ idx, idx < numberOfBatches N T ∧ inChunk N T idx p)
        ↔ p < numberOfBatches N T * unitsOfWork N T)
    ∧ numberOfBatches N T * unitsOfWork N T ≤ N := by
  have hu : 1 ≤ unitsOfWork N T := unitsOfWork_pos N T hN hT
  have hbu : numberOfBatches N T * unitsOfWork N T ≤ N := by
    unfold numberOfBatches
    exact Nat.div_mul_le_self N (unitsOfWork N T)
  have hstop : ∀ idx, idx < numberOfBatches N T →
      chunkStop N T idx = (idx + 1) * unitsOfWork N T := by
    intro idx hidx
    unfold chunkStop
    refine Nat.min_eq_left ?_
    calc (idx + 1) * unitsOfWork N T
        ≤ numberOfBatches N T * unitsOfWork N T :=
          Nat.mul_le_mul_right _ (by omega)
      _ ≤ N := hbu
  refine ⟨?_, ?_, hbu⟩
  · intro i j p hi hj hpi hpj
    obtain ⟨hi1, hi2⟩ := hpi
    obtain ⟨hj1, hj2⟩ := hpj
    rw [hstop i hi] at hi2
    rw [hstop j hj] at hj2
    unfold chunkStart at hi1 hj1
    rcases Nat.lt_trichotomy i j with hij | hij | hij
    · exfalso
      have hm : (i + 1) * unitsOfWork N T ≤ j * unitsOfWork N T :=
        Nat.mul_le_mul_right _ (by omega)
      omega
    · exact hij
    · exfalso
      have hm : (j + 1) * unitsOfWork N T ≤ i * unitsOfWork N T :=
        Nat.mul_le_mul_right _ (by omega)
      omega
  · intro p
    constructor
    · rintro ⟨idx, hidx, h1, h2⟩
      rw [hstop idx hidx] at h2
      have hm : (idx + 1) * unitsOfWork N T
          ≤ numberOfBatches N T * unitsOfWork N T :=
        Nat.mul_le_mul_right _ (by omega)
      omega
    · intro hp
      have hdivb : p / unitsOfWork N T < numberOfBatches N T := by
        rw [Nat.div_lt_iff_lt_mul hu]
        exact hp
      refine ⟨p / unitsOfWork N T, hdivb, ?_, ?_⟩
      · show chunkStart N T (p / unitsOfWork N T) ≤ p
        unfold chunkStart
        exact Nat.div_mul_le_self p (unitsOfWork N T)
      · show p < chunkStop N T (p / unitsOfWork N T)
        rw [hstop (p / unitsOfWork N T) hdivb]
        have h1 := Nat.div_add_mod p (unitsOfWork N T)
        have h2 : p % unitsOfWork N T < unitsOfWork N T := Nat.mod_lt _ hu
        have h3 : (p / unitsOfWork N T + 1) * unitsOfWork N T
            = unitsOfWork N T * (p / unitsOfWork N T) + unitsOfWork N T := by
          ring
        omega

/-- C1: for every rank R in [1,7], both layouts, and every extent N ≥ 1,
if the source view's elements are initialized so that the element at
flat index i equals i, then after the team-scoped per-league-slice copy
localDeepCopy(teamCtx, dst, src) over shape-compatible views, every
element of dst equals the corresponding element of src. -/
theorem C1_team_copy_elementwise (lay : Layout) (r N : Nat) (B : Nat → Int)
    (hr1 : 1 ≤ r) (hr7 : r ≤ 7) (hN : 1 ≤ N) :
    ∀ p, p < N ^ (r + 1) →
      test_local_deepcopy lay r N view_init_store B p = view_init_store p :=
  fun p hp => team_copy_val lay r N hr1 view_init_store B p hp

theorem C1_team_copy_elementwise_witness :
    1 ≤ 1 ∧ 1 ≤ 7 ∧ 1 ≤ 2 ∧ 3 < 2 ^ (1 + 1) ∧
      test_local_deepcopy Layout.left 1 2 view_init_store (fun _ => 0) 3
        = view_init_store 3 :=
  ⟨by decide, by decide, by decide, by decide,
    C1_team_copy_elementwise Layout.left 1 2 (fun _ => 0)
      (by decide) (by decide) (by decide) 3 (by decide)⟩

/-- C2: for every rank R in [1,7] and extent N ≥ 1, after the
team-scoped scalar fill localDeepCopy(ctx, dst, fill_value) has been
applied to every rank-R slice of the rank-(R+1) view B whose every
dimension has extent N, every element of B equals fill_value and the
sum of all its elements equals fill_value * N^(R+1) (N raised to the
view's rank). -/
theorem C2_team_fill_sum (lay : Layout) (r N : Nat) (B : Nat → Int)
    (hr1 : 1 ≤ r) (hr7 : r ≤ 7) (hN : 1 ≤ N) :
    (∀ p, p < N ^ (r + 1) →
        test_local_deepcopy_scalar lay r N B p = fill_value)
    ∧ (Finset.range (N ^ (r + 1))).sum (test_local_deepcopy_scalar lay r N B)
        = fill_value * (N : Int) ^ (r + 1) := by
  have hval : ∀ p, p < N ^ (r + 1) →
      test_local_deepcopy_scalar lay r N B p = fill_value :=
    fun p hp => team_fill_val lay r N hr1 B p hp
  refine ⟨hval, ?_⟩
  have hsum : (Finset.range (N ^ (r + 1))).sum (test_local_deepcopy_scalar lay r N B)
      = (Finset.range (N ^ (r + 1))).sum (fun _ => fill_value) :=
    Finset.sum_congr rfl (fun p hp => hval p (Finset.mem_range.mp hp))
  rw [hsum, Finset.sum_const, Finset.card_range, nsmul_eq_mul]
  push_cast
  ring

theorem C2_team_fill_sum_witness :
    1 ≤ 1 ∧ 1 ≤ 7 ∧ 1 ≤ 1 ∧
      ((∀ p, p < 1 ^ (1 + 1) →
          test_local_deepcopy_scalar Layout.left 1 1 (fun _ => 0) p = fill_value)
        ∧ (Finset.range (1 ^ (1 + 1))).sum
            (test_local_deepcopy_scalar Layout.left 1 1 (fun _ => 0))
          = fill_value * (1 : Int) ^ (1 + 1)) :=
  ⟨by decide, by decide, by decide,
    C2_team_fill_sum Layout.left 1 1 (fun _ => 0) (by decide) (by decide) (by decide)⟩

theorem C3_chunk_cover_amended_witness :
    1 ≤ 5 ∧ 1 ≤ 2 ∧
      ((∀ i j p, i < numberOfBatches 5 2 → j < numberOfBatches 5 2 →
          inChunk 5 2 i p → inChunk 5 2 j p → i = j)
       ∧ (∀ p, (∃ idx, idx < numberOfBatches 5 2 ∧ inChunk 5 2 idx p)
           ↔ p < numberOfBatches 5 2 * unitsOfWork 5 2)
       ∧ numberOfBatches 5 2 * unitsOfWork 5 2 ≤ 5) :=
  ⟨by decide, by decide, C3_chunk_cover_amended 5 2 (by decide) (by decide)⟩

/-- C4: for every rank R in [1,7], both layouts, and every N ≥ 1, when
each thread copies its own disjoint slice of the source into the
matching slice of the destination via local_deep_copy_thread (with no
barrier after any per-thread call — the embedding performs no
synchronization step anywhere in the scenario), the destination equals
the source elementwise once all per-thread calls have completed. -/
theorem C4_thread_copy_elementwise (lay : Layout) (r N : Nat) (A B : Nat → Int)
    (hr1 : 1 ≤ r) (hr7 : r ≤ 7) (hN : 1 ≤ N) :
    ∀ p, p < N ^ (r + 1) →
      test_local_deepcopy_thread lay r N A B p = A p :=
  fun p hp => thread_copy_val lay r N hr1 hN A B p hp

theorem C4_thread_copy_elementwise_witness :
    1 ≤ 1 ∧ 1 ≤ 7 ∧ 1 ≤ 2 ∧ 2 < 2 ^ (1 + 1) ∧
      test_local_deepcopy_thread Layout.right 1 2 view_init_store (fun _ => 0) 2
        = view_init_store 2 :=
  ⟨by decide, by decide, by decide, by decide,
    C4_thread_copy_elementwise Layout.right 1 2 view_init_store (fun _ => 0)
      (by decide) (by decide) (by decide) 2 (by decide)⟩

/-- C5: in the scratch round-trip scenario with N lanes, after each lane
index i fills its own scratch row with the value i, the team-scoped copy
of scratch column 0 into check_view_1 yields check_view_1[i] = i for
every i < N; then after the team-scoped fill of the whole scratch view
with 6 and the team-scoped copy of column 0 into check_view_2, every
entry of check_view_2 equals 6. -/
theorem C5_scratch_roundtrip (N : Nat) (S v1 v2 : Nat → Int) (i : Nat)
    (hi : i < N) :
    (deep_copy_scratch_run N S v1 v2).1 i = (i : Int)
      ∧ (deep_copy_scratch_run N S v1 v2).2 i = 6 := by
  constructor
  · exact (scratch_column_read N _ v1 i hi).trans (scratch_fill_diag N S i hi)
  · exact (scratch_column_read N _ v2 i hi).trans (scratch_fill_all N _ i hi)

theorem C5_scratch_roundtrip_witness :
    1 < 2 ∧
      ((deep_copy_scratch_run 2 (fun _ => 0) (fun _ => 0) (fun _ => 0)).1 1
          = ((1 : Nat) : Int)
        ∧ (deep_copy_scratch_run 2 (fun _ => 0) (fun _ => 0) (fun _ => 0)).2 1 = 6) :=
  ⟨by decide,
    C5_scratch_roundtrip 2 (fun _ => 0) (fun _ => 0) (fun _ => 0) 1 (by decide)⟩

/-- C6: the unscoped variants localDeepCopy(dst, src) and
localDeepCopy(dst, scalar) are semantically identical to the
thread-scoped forms — one call walks the whole destination with no
internal concurrency and no barrier — so running them per independent
slice of a flat range iteration produces the same final destination
contents as the thread-scoped and team-scoped scenarios. -/
theorem C6_unscoped_equiv (lay : Layout) (r N : Nat) (A B B2 : Nat → Int)
    (hr1 : 1 ≤ r) (hr7 : r ≤ 7) (hN : 1 ≤ N) :
    ∀ p, p < N ^ (r + 1) →
      test_local_deepcopy_range lay r N A B p = test_local_deepcopy lay r N A B p
      ∧ test_local_deepcopy_range lay r N A B p
          = test_local_deepcopy_thread lay r N A B p
      ∧ test_local_deepcopy_scalar_range lay r N B2 p
          = test_local_deepcopy_scalar lay r N B2 p := by
  intro p hp
  refine ⟨by rw [range_copy_eq_team], ?_, by rw [range_fill_eq_team]⟩
  rw [range_copy_eq_team, team_copy_val lay r N hr1 A B p hp,
    thread_copy_val lay r N hr1 hN A B p hp]

theorem C6_unscoped_equiv_witness :
    1 ≤ 1 ∧ 1 ≤ 7 ∧ 1 ≤ 2 ∧ 1 < 2 ^ (1 + 1) ∧
      (test_local_deepcopy_range Layout.left 1 2 view_init_store (fun _ => 0) 1
          = test_local_deepcopy Layout.left 1 2 view_init_store (fun _ => 0) 1
        ∧ test_local_deepcopy_range Layout.left 1 2 view_init_store (fun _ => 0) 1
            = test_local_deepcopy_thread Layout.left 1 2 view_init_store (fun _ => 0) 1
        ∧ test_local_deepcopy_scalar_range Layout.left 1 2 (fun _ => 0) 1
            = test_local_deepcopy_scalar Layout.left 1 2 (fun _ => 0) 1) :=
  ⟨by decide, by decide, by decide, by decide,
    C6_unscoped_equiv Layout.left 1 2 view_init_store (fun _ => 0) (fun _ => 0)
      (by decide) (by decide) (by decide) 1 (by decide)⟩

/-- C8: a copy call whose destination and source extents differ is a
non-recoverable programming error: the modelled fail-fast check aborts
(returns none) and never performs a partial or reinterpreted copy. -/
theorem C8_shape_mismatch_fail_fast (lay : Layout) (esD esS : List Nat)
    (src dst : Nat → Int) (h : esD ≠ esS) :
    local_deep_copy_checked lay esD esS src dst = none := by
  unfold local_deep_copy_checked
  rw [if_neg h]

theorem C8_shape_mismatch_fail_fast_witness :
    ([2] : List Nat) ≠ [3] ∧
      local_deep_copy_checked Layout.left [2] [3] (fun _ => 0) (fun _ => 0) = none :=
  ⟨by decide,
    C8_shape_mismatch_fail_fast Layout.left [2] [3] (fun _ => 0) (fun _ => 0)
      (by decide)⟩

theorem C9_view_check_equals_iff_witness :
    view_check_equals 2 (fun _ => (5 : Int)) (fun _ => (5 : Int)) = true
      ↔ ∀ i, i < 2 → (5 : Int) = (5 : Int) :=
  C9_view_check_equals_iff 2 (fun _ => (5 : Int)) (fun _ => (5 : Int))

/-- C10: extract_subview is defined only for parent views of rank
strictly greater than 1 (the static_assert rejection modelled as none),
and for a rank-R parent it returns the selector list fixing dimension 0
to lid, applying the given bounds to dimension 1, and taking the full
range of the remaining R-2 dimensions; the resulting subview aliases the
parent's storage — subGet reads the parent store at the mapped parent
offset — and never copies element data. -/
theorem C10_extract_subview_alias (rank lid a b : Nat) :
    (rank ≤ 1 → extract_subview rank lid (Sel.rng a b) = none
      ∧ extract_subview rank lid Sel.all = none)
    ∧ (2 ≤ rank →
        extract_subview rank lid (Sel.rng a b) = some (subSels lid (Sel.rng a b) rank)
        ∧ (∀ j t, selTuple (subSels lid (Sel.rng a b) rank) (j :: t)
            = lid :: (a + j) :: t)
        ∧ (∀ t, selTuple (subSels lid Sel.all rank) t = lid :: t)
        ∧ (∀ (store : Nat → Int) (lay : Layout) (es : List Nat) (t : List Nat),
            subGet store lay es (subSels lid (Sel.rng a b) rank) t
              = store (off lay es (selTuple (subSels lid (Sel.rng a b) rank) t)))) := by
  constructor
  · intro h
    constructor
    · unfold extract_subview
      rw [if_neg (by omega)]
    · unfold extract_subview
      rw [if_neg (by omega)]
  · intro h
    obtain ⟨k, rfl⟩ : ∃ k, rank = k + 2 := ⟨rank - 2, by omega⟩
    refine ⟨?_, ?_, ?_, ?_⟩
    · unfold extract_subview
      rw [if_pos (by omega)]
    · intro j t
      exact selTuple_fix_rng lid a b k j t
    · intro t
      exact selTuple_fix_all lid k t
    · intro store lay es t
      rfl

theorem C10_extract_subview_alias_witness :
    (2 ≤ 3 ∧ extract_subview 3 4 (Sel.rng 1 2) = some (subSels 4 (Sel.rng 1 2) 3))
      ∧ (1 ≤ 1 ∧ extract_subview 1 4 (Sel.rng 1 2) = none) :=
  ⟨⟨by decide, ((C10_extract_subview_alias 3 4 1 2).2 (by decide)).1⟩,
    ⟨by decide, ((C10_extract_subview_alias 1 4 1 2).1 (by decide)).1⟩⟩

end LocalDeepCopy
